import Mathlib

/-!
Verification of the IACSGRAPH keyword-extraction and mail-deduplication core.

This file gives a shallow embedding, over `List Char` and `String`, of

* `MailProcessorKeywordExtractorService._clean_text`, `_parse_keywords`,
  `_fallback_keyword_extraction` and `extract_keywords`
  (src/modules/mail_processor/keyword_extractor_service.py), and
* `MailDatabaseService.check_duplicate_by_content_hash`,
  `save_mail_with_hash` and `_get_actual_account_id`
  (src/modules/mail_process/service/db_service.py),

and proves the spec's claims about them.  Python strings are modelled as
`List Char` (Lean `Char` is a Unicode scalar value, matching Python's
per-code-point semantics of `len`, slicing and iteration).  Python's `re`
patterns used by the source are all of a simple scanning shape (character
classes, literal text, greedy runs and a three-way alternation); each one is
embedded as an explicit left-to-right scanner with the same leftmost-match,
continue-after-the-match semantics as `re.sub`/`re.findall`.

Modelling notes, fixed once here:

* Python's Unicode `\w` and `\s` are modelled by `isWordChar` / `isSpaceChar`
  restricted to the character repertoire this system actually processes:
  ASCII alphanumerics, underscore and Hangul syllables for `\w`, and the six
  ASCII whitespace characters for `\s`.
* The network call of `_call_openrouter_api` is modelled by an `ApiOutcome`
  value enumerating every exit of that function established from its source
  (HTTP 200 with a content string, non-200, JSON decode failure, missing
  `choices`/`message.content`, network error, timeout, unexpected exception),
  plus `raised` for an exception escaping the call itself; the embedding of
  `extract_keywords` is total, which is exactly the "never raises past its
  own boundary" guarantee, given that `ApiOutcome` covers all behaviours of
  the one external call.
* `hashlib.sha256(...).hexdigest()`, `json.loads` and `json.dumps` are Python
  standard library collaborators, not repository code; they enter the
  embedding as opaque function parameters (`hashFn`, `dec`, `enc`).
* Wall-clock fields (`execution_time_ms`) and log statements are not
  modelled.
-/

/-! ## Character classes (Python `\s`, `\w`, `[가-힣]` and friends) -/

/-- Python `str` whitespace as used by `\s`, `strip()` and `split()`,
restricted to ASCII: space, tab, newline, carriage return, vertical tab,
form feed. -/
def isSpaceChar (c : Char) : Bool :=
  c = ' ' || c = '\t' || c = '\n' || c = '\r' || c = '\x0b' || c = '\x0c'

/-- The Hangul-syllable range `[가-힣]` appearing throughout the source. -/
def isHangul (c : Char) : Bool :=
  '가' ≤ c && c ≤ '힣'

/-- Python `\w` (word character), restricted to the repertoire the system
processes: ASCII alphanumerics, underscore, Hangul syllables. -/
def isWordChar (c : Char) : Bool :=
  c.isAlphanum || c = '_' || isHangul c

/-- ASCII lowercase or uppercase letter, `[a-zA-Z]`. -/
def isAsciiLetter (c : Char) : Bool :=
  ('a' ≤ c && c ≤ 'z') || ('A' ≤ c && c ≤ 'Z')

/-- ASCII uppercase letter, `[A-Z]`. -/
def isAsciiUpper (c : Char) : Bool :=
  'A' ≤ c && c ≤ 'Z'

/-- ASCII digit, `\d` restricted to ASCII. -/
def isAsciiDigit (c : Char) : Bool :=
  '0' ≤ c && c ≤ '9'

/-- Drop `p`-characters from both ends of a list: the common shape of
Python `str.strip()` and of the parser's `re.sub(r"^[^\w가-힣]+|[^\w가-힣]+$", "", kw)`
(the leading run, then the trailing run, are removed). -/
def stripEnds (p : Char → Bool) (l : List Char) : List Char :=
  List.rdropWhile p (l.dropWhile p)

/-- Python `str.strip()`: drop whitespace from both ends. -/
def pyStrip (l : List Char) : List Char :=
  stripEnds isSpaceChar l

/-! ## `_clean_text` (keyword_extractor_service.py lines 259-302)

Each numbered step of the Python pipeline becomes one definition, applied in
the source's order by `cleanText`. -/

/-- Step 1a: `text.replace("\r\n", "\n")`. -/
def replaceCRLF : List Char → List Char
  | '\r' :: '\n' :: rest => '\n' :: replaceCRLF rest
  | c :: rest => c :: replaceCRLF rest
  | [] => []

/-- Step 1b: `clean.replace("\r", "\n")`. -/
def replaceCR (l : List Char) : List Char :=
  l.map fun c => if c = '\r' then '\n' else c

/-- Worker for `scanSub`: the first argument is the number of characters
still to skip (the tail of a match already emitted). -/
def scanSubAux (f : List Char → Option Nat) (repl : List Char) : Nat → List Char → List Char
  | _ + 1, [] => []
  | n + 1, _ :: rest => scanSubAux f repl n rest
  | 0, [] => []
  | 0, c :: rest =>
    match f (c :: rest) with
    | some n => repl ++ scanSubAux f repl n rest
    | none => c :: scanSubAux f repl 0 rest

/-- Generic embedding of `re.sub(pattern, repl, s)` for a scanning matcher:
`f s = some n` means the pattern matches a prefix of `s` of length `n + 1`.
Matches are found leftmost-first and scanning resumes after each match,
exactly as `re.sub` does. -/
def scanSub (f : List Char → Option Nat) (repl : List Char) (l : List Char) : List Char :=
  scanSubAux f repl 0 l

/-- Matcher for `<[^>]+>`: at `'<'`, a nonempty run of non-`'>'` characters
followed by `'>'`. -/
def tagMatch : List Char → Option Nat
  | '<' :: rest =>
    let seg := rest.takeWhile (fun c => c ≠ '>')
    if seg.length = 0 then none
    else if rest.length ≤ seg.length then none  -- no closing '>'
    else some (seg.length + 1)
  | _ => none

/-- Step 2: `re.sub(r"<[^>]+>", "", clean)`. -/
def removeTags : List Char → List Char := scanSub tagMatch []

/-- Matcher for `<[^>]+@[^>]+>`: like `tagMatch` but the segment before the
closing `'>'` must contain an `'@'` that is neither its first nor its last
character. -/
def angleEmailMatch : List Char → Option Nat
  | '<' :: rest =>
    let seg := rest.takeWhile (fun c => c ≠ '>')
    if seg.length = 0 then none
    else if rest.length ≤ seg.length then none
    else if (seg.drop 1).dropLast.contains '@' then some (seg.length + 1)
    else none
  | _ => none

/-- Step 3a: `re.sub(r"<[^>]+@[^>]+>", " ", clean)`. -/
def removeAngleEmails : List Char → List Char := scanSub angleEmailMatch [' ']

/-- Character class `[a-zA-Z0-9._%+-]` (email local part). -/
def isLocalChar (c : Char) : Bool :=
  c.isAlphanum || c = '.' || c = '_' || c = '%' || c = '+' || c = '-'

/-- Character class `[a-zA-Z0-9.-]` (email domain part). -/
def isDomainChar (c : Char) : Bool :=
  c.isAlphanum || c = '.' || c = '-'

/-- For the domain run `dom` of an email candidate: try a literal `'.'` at
index `k` followed by at least two ASCII letters; return the length of the
greedy letter run after the dot. -/
def tryDotAt (dom : List Char) (k : Nat) : Option Nat :=
  if dom.get? k = some '.' then
    let ls := (dom.drop (k + 1)).takeWhile isAsciiLetter
    if 2 ≤ ls.length then some ls.length else none
  else none

/-- Backtracking of `[a-zA-Z0-9.-]+\.[a-zA-Z]{2,}`: the engine shrinks the
greedy `+` from the right, so the dot index `k` is tried from high to low
(never 0, since the `+` needs at least one character). -/
def findDotSplit (dom : List Char) : Nat → Option (Nat × Nat)
  | 0 => none
  | k + 1 =>
    match tryDotAt dom (k + 1) with
    | some n => some (k + 1, n)
    | none => findDotSplit dom k

/-- Matcher for `[a-zA-Z0-9._%+-]+@[a-zA-Z0-9.-]+\.[a-zA-Z]{2,}` anchored at
the head of `s`. -/
def emailMatch (s : List Char) : Option Nat :=
  let loc := s.takeWhile isLocalChar
  if loc.length = 0 then none
  else
    match s.drop loc.length with
    | '@' :: r2 =>
      let dom := r2.takeWhile isDomainChar
      match findDotSplit dom (dom.length - 1) with
      | some (k, n) => some (loc.length + k + n + 1)
      | none => none
    | _ => none

/-- Step 3b: `re.sub(r"[a-zA-Z0-9._%+-]+@[a-zA-Z0-9.-]+\.[a-zA-Z]{2,}", " ", clean)`. -/
def removeEmails : List Char → List Char := scanSub emailMatch [' ']

/-- Matcher for `https?://[^\s]+` anchored at the head. -/
def httpMatch : List Char → Option Nat
  | 'h' :: 't' :: 't' :: 'p' :: rest =>
    match rest with
    | 's' :: ':' :: '/' :: '/' :: r =>
      let run := r.takeWhile (fun c => !isSpaceChar c)
      if run.length = 0 then none else some (7 + run.length)
    | ':' :: '/' :: '/' :: r =>
      let run := r.takeWhile (fun c => !isSpaceChar c)
      if run.length = 0 then none else some (6 + run.length)
    | _ => none
  | _ => none

/-- Step 4a: `re.sub(r"https?://[^\s]+", " ", clean)`. -/
def removeHttpUrls : List Char → List Char := scanSub httpMatch [' ']

/-- Matcher for `www\.[^\s]+` anchored at the head. -/
def wwwMatch : List Char → Option Nat
  | 'w' :: 'w' :: 'w' :: '.' :: r =>
    let run := r.takeWhile (fun c => !isSpaceChar c)
    if run.length = 0 then none else some (3 + run.length)
  | _ => none

/-- Step 4b: `re.sub(r"www\.[^\s]+", " ", clean)`. -/
def removeWwwUrls : List Char → List Char := scanSub wwwMatch [' ']

/-- Worker for step 5: the flag records whether we are inside a newline
run (whose first character already emitted the single space). -/
def collapseNewlinesAux : Bool → List Char → List Char
  | _, [] => []
  | inRun, c :: rest =>
    if c = '\n' then
      if inRun then collapseNewlinesAux true rest
      else ' ' :: collapseNewlinesAux true rest
    else c :: collapseNewlinesAux false rest

/-- Step 5: `re.sub(r"\n+", " ", clean)`: each maximal run of newlines
becomes one space. -/
def collapseNewlines (l : List Char) : List Char :=
  collapseNewlinesAux false l

/-- Step 6: `clean.replace("\t", " ")`. -/
def tabToSpace (l : List Char) : List Char :=
  l.map fun c => if c = '\t' then ' ' else c

/-- The class kept by step 7, `[^\w\s가-힣.,!?():;-]` complemented:
word characters, whitespace, Hangul, and `.,!?():;-`. -/
def allowedChar (c : Char) : Bool :=
  isWordChar c || isSpaceChar c || isHangul c ||
    (c = '.' || c = ',' || c = '!' || c = '?' || c = '(' || c = ')' ||
     c = ':' || c = ';' || c = '-')

/-- Step 7: `re.sub(r"[^\w\s가-힣.,!?():;-]", " ", clean)`. -/
def filterSpecialChars (l : List Char) : List Char :=
  l.map fun c => if allowedChar c then c else ' '

/-- `'-'` or `'='`, the class of step 8. -/
def isDashEq (c : Char) : Bool := c = '-' || c = '='

/-- Emit a finished `-`/`=` run (held reversed): one space if its length is
at least 3, otherwise the run itself. -/
def flushDividerRun (runRev : List Char) : List Char :=
  if 3 ≤ runRev.length then [' '] else runRev.reverse

/-- Worker for step 8, accumulating the current `-`/`=` run reversed. -/
def collapseDividersAux (runRev : List Char) : List Char → List Char
  | [] => flushDividerRun runRev
  | c :: rest =>
    if isDashEq c then collapseDividersAux (c :: runRev) rest
    else flushDividerRun runRev ++ c :: collapseDividersAux [] rest

/-- Step 8: `re.sub(r"[-=]{3,}", " ", clean)`: a maximal run of `-`/`=` of
length at least 3 becomes one space; shorter runs are kept. -/
def collapseDividers (l : List Char) : List Char :=
  collapseDividersAux [] l

/-- Worker for step 9, like `collapseNewlinesAux` but for all whitespace. -/
def collapseSpacesAux : Bool → List Char → List Char
  | _, [] => []
  | inRun, c :: rest =>
    if isSpaceChar c then
      if inRun then collapseSpacesAux true rest
      else ' ' :: collapseSpacesAux true rest
    else c :: collapseSpacesAux false rest

/-- Step 9: `re.sub(r"\s+", " ", clean)`: each maximal whitespace run
becomes one space. -/
def collapseSpaces (l : List Char) : List Char :=
  collapseSpacesAux false l

/-- `\b[a-zA-Z]\b` at a character: an ASCII letter whose neighbours (in the
original string; `none` at the ends) are not word characters. -/
def isIsolatedLetter (prev : Option Char) (c : Char) (next : Option Char) : Bool :=
  isAsciiLetter c &&
    !(match prev with | some p => isWordChar p | none => false) &&
    !(match next with | some n => isWordChar n | none => false)

/-- Step 10 worker: `prev` is the character to the left in the original
string (boundaries are judged on the original, as `re.sub` computes all
matches before splicing). -/
def removeIsolatedAux : Option Char → List Char → List Char
  | _, [] => []
  | prev, c :: rest =>
    if isIsolatedLetter prev c rest.head? then removeIsolatedAux (some c) rest
    else c :: removeIsolatedAux (some c) rest

/-- Step 10: `re.sub(r"\b[a-zA-Z]\b", "", clean)`. -/
def removeIsolatedLetters (l : List Char) : List Char :=
  removeIsolatedAux none l

/-- `_clean_text` (lines 259-302): the full eleven-step pipeline, with the
leading `if not text: return ""` guard. -/
def cleanText (text : List Char) : List Char :=
  if text = [] then []
  else
    pyStrip (removeIsolatedLetters (collapseSpaces (collapseDividers
      (filterSpecialChars (tabToSpace (collapseNewlines (removeWwwUrls
        (removeHttpUrls (removeEmails (removeAngleEmails (removeTags
          (replaceCR (replaceCRLF text)))))))))))))

/-! ## `_parse_keywords` (keyword_extractor_service.py lines 304-352) -/

/-- `re.search(r"\d+\.\s*", content)`: since `\s*` always matches and the
last digit of a `\d+` run is adjacent to the dot, a match exists exactly when
some digit is immediately followed by `'.'`. -/
def hasNumberDot : List Char → Bool
  | a :: b :: rest => (isAsciiDigit a && b = '.') || hasNumberDot (b :: rest)
  | _ => false

/-- One iteration of the numbered-format loop (lines 314-324):
`line.strip()`, skip empty lines, `re.match(r"\d+\.\s*(.+)", line)`, then
`group(1).strip()`, appended only when non-empty.  The greedy `\s*` plus the
final `strip()` make the appended keyword equal to the strip of everything
after the dot. -/
def numberedLineKeyword (rawline : List Char) : Option (List Char) :=
  let line := pyStrip rawline
  let ds := line.takeWhile isAsciiDigit
  if ds.length = 0 then none
  else
    match line.drop ds.length with
    | '.' :: rest =>
      if rest = [] then none
      else
        let kw := pyStrip rest
        if kw = [] then none else some kw
    | _ => none

/-- Worker for `str.split()`, accumulating the current word reversed. -/
def splitWsAux (accRev : List Char) : List Char → List (List Char)
  | [] => if accRev = [] then [] else [accRev.reverse]
  | c :: rest =>
    if isSpaceChar c then
      (if accRev = [] then [] else [accRev.reverse]) ++ splitWsAux [] rest
    else splitWsAux (c :: accRev) rest

/-- Python `str.split()` with no argument: maximal non-whitespace runs, no
empty tokens. -/
def splitWs (l : List Char) : List (List Char) :=
  splitWsAux [] l

/-- The candidate list built by the four mutually exclusive format rules
(lines 310-339), before the cleanup loop. -/
def rawKeywords (content : List Char) : List (List Char) :=
  if hasNumberDot content then
    (content.splitOn '\n').filterMap numberedLineKeyword
  else if content.contains ',' then
    ((content.splitOn ',').map pyStrip).filter (fun kw => kw ≠ [])
  else if content.contains '\n' then
    ((content.splitOn '\n').map pyStrip).filter (fun kw => kw ≠ [])
  else
    splitWs content

/-- `re.sub(r"^[^\w가-힣]+|[^\w가-힣]+$", "", kw)`: remove the leading and the
trailing run of non-word characters. -/
def stripNonWordEnds (kw : List Char) : List Char :=
  stripEnds (fun c => !(isWordChar c || isHangul c)) kw

/-- The cleanup applied to one candidate (lines 343-348): strip non-word
ends, keep only when the result has length at least 2. -/
def cleanKeyword (kw : List Char) : Option (List Char) :=
  let k := stripNonWordEnds kw
  if 2 ≤ k.length then some k else none

/-- `_parse_keywords` (lines 304-352). -/
def parseKeywords (content : List Char) : List (List Char) :=
  (rawKeywords content).filterMap cleanKeyword

/-! ## `_fallback_keyword_extraction` (keyword_extractor_service.py lines 236-257) -/

/-- Worker for `runsGE`, accumulating the current `p`-run reversed. -/
def runsGEAux (p : Char → Bool) (minLen : Nat) (accRev : List Char) :
    List Char → List (List Char)
  | [] => if accRev ≠ [] && minLen ≤ accRev.length then [accRev.reverse] else []
  | c :: rest =>
    if p c then runsGEAux p minLen (c :: accRev) rest
    else
      (if accRev ≠ [] && minLen ≤ accRev.length then [accRev.reverse] else []) ++
        runsGEAux p minLen [] rest

/-- `re.findall` for a pattern of shape `[class]{m,}`: the maximal runs of
`p`-characters of length at least `minLen`, left to right. -/
def runsGE (p : Char → Bool) (minLen : Nat) (l : List Char) : List (List Char) :=
  runsGEAux p minLen [] l

/-- The third branch `\d{3,}` of the identifier pattern: a greedy digit run
of length at least 3 anchored at the head. -/
def identDigits3 (s : List Char) : Option (List Char) :=
  if 3 <= (s.takeWhile isAsciiDigit).length then some (s.takeWhile isAsciiDigit) else none

/-- One anchored attempt of `[A-Z]{2,}\d+|[A-Z]+-\d+|\d{3,}`, branches tried
in the regex's left-to-right order; the greedy runs need no backtracking
because shrinking a run lands the follow-up literal on a character of the
same class, so each branch succeeds exactly on maximal runs. -/
def identMatch (s : List Char) : Option (List Char) :=
  if 2 <= (s.takeWhile isAsciiUpper).length /\
      1 <= (((s.drop (s.takeWhile isAsciiUpper).length)).takeWhile isAsciiDigit).length then
    some (s.takeWhile isAsciiUpper ++
      ((s.drop (s.takeWhile isAsciiUpper).length)).takeWhile isAsciiDigit)
  else
    match s.drop (s.takeWhile isAsciiUpper).length with
    | '-' :: r2 =>
      if 1 <= (s.takeWhile isAsciiUpper).length /\ 1 <= (r2.takeWhile isAsciiDigit).length then
        some (s.takeWhile isAsciiUpper ++ '-' :: r2.takeWhile isAsciiDigit)
      else identDigits3 s
    | _ => identDigits3 s

/-- Worker for `identTokens`: the first argument is the number of
characters still to skip (tail of the emitted match). -/
def identTokensAux : Nat → List Char → List (List Char)
  | _ + 1, [] => []
  | n + 1, _ :: rest => identTokensAux n rest
  | 0, [] => []
  | 0, c :: rest =>
    match identMatch (c :: rest) with
    | some t => t :: identTokensAux (t.length - 1) rest
    | none => identTokensAux 0 rest

/-- `re.findall(r"[A-Z]{2,}\d+|[A-Z]+-\d+|\d{3,}", text)`: scan left to
right, restart after each match. -/
def identTokens (l : List Char) : List (List Char) :=
  identTokensAux 0 l

/-! ## `collections.Counter.most_common` and the fallback extractor -/

/-- An entry of the `Counter`: a distinct word together with its position in
first-occurrence order and its frequency. -/
structure WordStat where
  idx : Nat
  word : List Char
  cnt : Nat
deriving DecidableEq, Repr

/-- The order realised by `Counter.most_common` (`heapq.nlargest`, a stable
descending sort by count): higher count first, ties by smaller
first-occurrence index.  On stats with pairwise distinct indices this total
order determines the stable sort uniquely. -/
def statLE (a b : WordStat) : Prop :=
  b.cnt < a.cnt ∨ (a.cnt = b.cnt ∧ a.idx ≤ b.idx)

instance : DecidableRel statLE := fun a b => by
  unfold statLE
  infer_instance

instance : IsTotal WordStat statLE where
  total a b := by
    unfold statLE
    omega

instance : IsTrans WordStat statLE where
  trans a b c hab hbc := by
    unfold statLE at hab hbc ⊢
    omega

/-- The distinct elements of `l` in order of first occurrence — the key
order of a Python `dict`/`Counter` built by counting `l`. -/
def firstUniqAux (seen : List (List Char)) : List (List Char) → List (List Char)
  | [] => []
  | w :: rest =>
    if w ∈ seen then firstUniqAux seen rest
    else w :: firstUniqAux (w :: seen) rest

def firstUniq (l : List (List Char)) : List (List Char) :=
  firstUniqAux [] l

/-- Attach first-occurrence indices (from `i` up) and frequencies in
`words` to a list of distinct words. -/
def attachStats (words : List (List Char)) : Nat → List (List Char) → List WordStat
  | _, [] => []
  | i, w :: rest => ⟨i, w, words.count w⟩ :: attachStats words (i + 1) rest

/-- The `Counter(all_words)` items, in insertion order. -/
def wordStats (words : List (List Char)) : List WordStat :=
  attachStats words 0 (firstUniq words)

/-- `Counter(words).most_common(n)`: stable descending sort by count, first
`n` keys.  `heapq.nlargest` returns `[]` for `n <= 0`, matching
`Int.toNat`. -/
def mostCommon (n : Int) (words : List (List Char)) : List (List Char) :=
  ((List.insertionSort statLE (wordStats words)).map WordStat.word).take n.toNat

/-- The pooled token list of `_fallback_keyword_extraction` (lines 242-251):
Hangul runs of length at least 2, Latin-letter runs of length at least 3,
then identifier tokens, in that concatenation order. -/
def allWords (clean : List Char) : List (List Char) :=
  runsGE isHangul 2 clean ++ runsGE isAsciiLetter 3 clean ++ identTokens clean

/-- `_fallback_keyword_extraction` (lines 236-257): re-clean the input, pool
the three token classes, return the most common `maxKeywords`. -/
def fallbackKeywordExtraction (text : List Char) (maxKeywords : Int) : List (List Char) :=
  mostCommon maxKeywords (allWords (cleanText text))

/-! ## `extract_keywords` (keyword_extractor_service.py lines 47-101) -/

/-- Python slicing `l[:n]` for an `int` bound `n` (negative bounds count
from the end). -/
def pySlice {α : Type} (n : Int) (l : List α) : List α :=
  if 0 ≤ n then l.take n.toNat else l.take ((l.length : Int) + n).toNat

/-- The observable outcome of the one `await self._call_openrouter_api(...)`
call, enumerating the exits of that function (lines 109-234): a 200 response
whose parsed JSON has `choices[0].message.content` (the string is carried),
or any of its internal failure exits, or an exception escaping the call
itself. -/
inductive ApiOutcome where
  | ok (content : List Char)
  | non200
  | badJson
  | noChoices
  | noContent
  | clientError
  | timeout
  | unexpectedError
  | raised
deriving DecidableEq, Repr

/-- The keyword list returned by `_call_openrouter_api` (its `token_info`
component is not modelled): on a carried content with non-empty strip,
`self._parse_keywords(content)[:max_keywords]` (line 219); every failure
exit returns `[]`. -/
def callOpenrouterKeywords (o : ApiOutcome) (maxKeywords : Int) : List (List Char) :=
  match o with
  | .ok content => if pyStrip content ≠ [] then pySlice maxKeywords (parseKeywords content) else []
  | _ => []

/-- The fields of `KeywordExtractionResponse` the claims are about;
`model`, `execution_time_ms` and `token_info` are not modelled. -/
structure KeywordExtractionResponse where
  keywords : List (List Char)
  method : String
deriving DecidableEq, Repr

/-- `extract_keywords` (lines 47-101).  `apiKey` is the truthiness of
`self.api_key`; `outcome` is the behaviour of the one remote call (consulted
only on the path that performs it).  The `raised` branch is the
`except Exception` handler (lines 92-101), which runs the fallback on the
raw `text`; all other branches mirror the `try` body. -/
def extractKeywords (apiKey : Bool) (outcome : ApiOutcome) (text : List Char)
    (maxKeywords : Int) : KeywordExtractionResponse :=
  if (pyStrip (cleanText text)).length < 10 then ⟨[], "empty_text"⟩
  else if apiKey then
    match outcome with
    | .raised => ⟨fallbackKeywordExtraction text maxKeywords, "fallback_error"⟩
    | o =>
      if callOpenrouterKeywords o maxKeywords ≠ [] then
        ⟨callOpenrouterKeywords o maxKeywords, "openrouter"⟩
      else ⟨fallbackKeywordExtraction (cleanText text) maxKeywords, "fallback"⟩
  else ⟨fallbackKeywordExtraction (cleanText text) maxKeywords, "fallback"⟩

/-! ## `MailDatabaseService` (db_service.py)

The persistence collaborator is modelled as an explicit state.  The SQL
query of `check_duplicate_by_content_hash`,

  `SELECT keywords FROM mail_history WHERE content_hash = ? OR message_id = ? LIMIT 1`,

is `List.find?` over the stored rows with the row-order of the store;
`hashlib.sha256(content.encode("utf-8")).hexdigest()` (`_generate_content_hash`,
lines 153-155), `json.loads` and `json.dumps` are standard-library
collaborators passed as opaque parameters. -/

/-- The columns of a `mail_history` row this module touches.  `keywords` is
a nullable TEXT column (`none` models SQL NULL). -/
structure MailHistoryRow where
  account_id : Int
  message_id : String
  received_time : String
  subject : String
  sender : String
  keywords : Option String
  processed_at : String
  content_hash : String
deriving DecidableEq, Repr

/-- The columns of an `accounts` row this module touches. -/
structure Account where
  id : Int
  user_id : String
  user_name : String
  is_active : Bool
deriving DecidableEq, Repr

/-- The store behind `self.db_manager`, restricted to the two tables this
service reads and writes. -/
structure DbState where
  accounts : List Account
  mail_history : List MailHistoryRow
deriving DecidableEq, Repr

/-- Whether a row satisfies `content_hash = ? OR message_id = ?`. -/
def dupRowMatches (contentHash mailId : String) (r : MailHistoryRow) : Bool :=
  r.content_hash = contentHash || r.message_id = mailId

/-- `fetch_one` of the dedup query with `LIMIT 1`: the first matching row in
store order, if any. -/
def fetchOneDup (st : DbState) (contentHash mailId : String) : Option MailHistoryRow :=
  st.mail_history.find? (dupRowMatches contentHash mailId)

/-- `check_duplicate_by_content_hash` (lines 19-53).  `hashFn` models
`_generate_content_hash` (SHA-256 hex digest of the UTF-8 encoding); `dec`
models `json.loads` on the stored payload, `none` meaning
`json.JSONDecodeError`.  A NULL or empty stored payload is falsy in
`json.loads(result["keywords"]) if result["keywords"] else []`, so it is
never decoded. -/
def checkDuplicateByContentHash (hashFn : String → String)
    (dec : String → Option (List String)) (st : DbState)
    (mailId content : String) : Bool × List String :=
  match fetchOneDup st (hashFn content) mailId with
  | none => (false, [])
  | some r =>
    match r.keywords with
    | none => (true, [])
    | some s =>
      if s = "" then (true, [])
      else
        match dec s with
        | some ks => (true, ks)
        | none => (true, [])

/-- The id SQLite assigns to a freshly inserted `accounts` row: one more
than the largest id in the table (autoincrement behaviour of the storage
engine, an external collaborator). -/
def freshAccountId (accounts : List Account) : Int :=
  (accounts.map Account.id).foldr max 0 + 1

/-- `_get_actual_account_id` (lines 157-181): an `int` passes through; a
string key is looked up in `accounts.user_id`, and when absent a placeholder
row `(user_id, "Test User (user_id)", is_active=1)` is inserted (logged as a
warning, not a failure) and its fresh id is returned. -/
def getActualAccountId (st : DbState) (accountId : Int ⊕ String) : Int × DbState :=
  match accountId with
  | .inl n => (n, st)
  | .inr uid =>
    match st.accounts.find? (fun a => a.user_id = uid) with
    | some a => (a.id, st)
    | none =>
      let nid := freshAccountId st.accounts
      (nid, ⟨st.accounts ++ [⟨nid, uid, "Test User (" ++ uid ++ ")", true⟩], st.mail_history⟩)

/-- The fields of `ProcessedMailData` read by `save_mail_with_hash`.
`account_id` is declared a string but the code tolerates an `int`
(`isinstance` check), hence the sum. -/
structure ProcessedMailData where
  account_id : Int ⊕ String
  mail_id : String
  sent_time : String
  subject : String
  sender_address : String
  keywords : List String
  processed_at : String
deriving DecidableEq, Repr

/-- `save_mail_with_hash` (lines 55-93): recompute the content hash from the
`clean_content` argument, resolve the account id (possibly inserting a
placeholder account), and append exactly one `mail_history` row carrying the
recomputed hash and the JSON-encoded keywords (`enc` models `json.dumps`).
`_ensure_content_hash_column` is a best-effort, exception-swallowed schema
tweak with no model-visible effect on row data. -/
def saveMailWithHash (enc : List String → String) (hashFn : String → String)
    (st : DbState) (pm : ProcessedMailData) (cleanContent : String) : DbState :=
  ⟨(getActualAccountId st pm.account_id).2.accounts,
   (getActualAccountId st pm.account_id).2.mail_history ++
     [⟨(getActualAccountId st pm.account_id).1, pm.mail_id, pm.sent_time, pm.subject,
       pm.sender_address, some (enc pm.keywords), pm.processed_at, hashFn cleanContent⟩]⟩

/-! ## Predicates used by the claims' statements -/

/-- A failing remote call, as enumerated by the claim: a non-200 status,
an unparsable body, a missing `choices`/`message.content`, a network error,
a timeout, an unexpected exception (inside the call, or escaping it), or a
200 response whose completion parses to zero keywords (which covers the
empty completion). -/
def remoteFailure (o : ApiOutcome) (maxKeywords : Int) : Prop :=
  o = ApiOutcome.non200 ∨ o = ApiOutcome.badJson ∨ o = ApiOutcome.noChoices ∨
    o = ApiOutcome.noContent ∨ o = ApiOutcome.clientError ∨
    o = ApiOutcome.timeout ∨ o = ApiOutcome.unexpectedError ∨
    o = ApiOutcome.raised ∨
    (∃ content, o = ApiOutcome.ok content ∧
      callOpenrouterKeywords o maxKeywords = [])

/-- No two adjacent whitespace characters. -/
def noDoubleSpace (l : List Char) : Bool :=
  l.tails.all fun s =>
    match s with
    | a :: b :: _ => !(isSpaceChar a && isSpaceChar b)
    | _ => true

/-- No three consecutive `-`/`=` characters (no `[-=]{3,}` match). -/
def noLongDividerRun (l : List Char) : Bool :=
  l.tails.all fun s =>
    match s with
    | a :: b :: c :: _ => !(isDashEq a && isDashEq b && isDashEq c)
    | _ => true

/-- No suffix carries a `www\.[^\s]+` match. -/
def wwwFree (l : List Char) : Bool :=
  l.tails.all fun s => (wwwMatch s).isNone

/-- Whether some position of the list is an isolated ASCII letter
(`prev` being the character left of the list's head). -/
def hasIsolatedAux (prev : Option Char) : List Char → Bool
  | [] => false
  | c :: rest => isIsolatedLetter prev c rest.head? || hasIsolatedAux (some c) rest

/-- The position of the first occurrence of `w` (the insertion-order rank of
a `Counter` key). -/
def firstIdx (w : List Char) : List (List Char) → Nat
  | [] => 0
  | a :: rest => if a = w then 0 else firstIdx w rest + 1

/-- The strict version of `statLE`: on stats with distinct indices,
`statLE` together with distinctness. -/
def statLT (a b : WordStat) : Prop :=
  b.cnt < a.cnt ∨ (a.cnt = b.cnt ∧ a.idx < b.idx)

/-- The rank order `most_common` realises on the words themselves: strictly
more frequent first, ties by strictly earlier first occurrence (in the
pooled word list `ws`). -/
def wordRankLt (ws : List (List Char)) (v w : List Char) : Prop :=
  ws.count w < ws.count v ∨
    (ws.count v = ws.count w ∧
      firstIdx v (firstUniq ws) < firstIdx w (firstUniq ws))

/-! ## Claim C7: parser format coverage (literal cases) -/

/-- C7: the response parser returns exactly the listed outputs on the five
literal inputs: numbered list, comma-separated, newline-separated,
whitespace-separated, and a too-short token after stripping. -/
theorem c7_parser_literal_cases :
    parseKeywords "1. 선박\n2. 안전\n3. 점검".toList =
        ["선박".toList, "안전".toList, "점검".toList] ∧
    parseKeywords "apple, banana, cherry".toList =
        ["apple".toList, "banana".toList, "cherry".toList] ∧
    parseKeywords "alpha\nbeta\ngamma".toList =
        ["alpha".toList, "beta".toList, "gamma".toList] ∧
    parseKeywords "one two three".toList =
        ["one".toList, "two".toList, "three".toList] ∧
    parseKeywords "a, ".toList = [] :=
  ⟨by decide, by decide, by decide, by decide, by decide⟩

/-! ## Claim C3: empty-text short-circuit -/

/-- C3: when the normalized text is shorter than 10 characters,
`extract_keywords` returns an empty keyword list with method `empty_text`,
and the result does not depend on the API key or on the remote call's
behaviour (neither the remote call nor the fallback extractor is
consulted). -/
theorem c3_empty_text_short_circuit (apiKey : Bool) (outcome : ApiOutcome)
    (text : List Char) (maxKeywords : Int)
    (h : (pyStrip (cleanText text)).length < 10) :
    (extractKeywords apiKey outcome text maxKeywords).keywords = [] ∧
    (extractKeywords apiKey outcome text maxKeywords).method = "empty_text" ∧
    ∀ (apiKey2 : Bool) (outcome2 : ApiOutcome),
      extractKeywords apiKey2 outcome2 text maxKeywords =
        extractKeywords apiKey outcome text maxKeywords := by
  refine ⟨?_, ?_, fun a2 o2 => ?_⟩ <;> unfold extractKeywords
  · rw [if_pos h]
  · rw [if_pos h]
  · rw [if_pos h, if_pos h]

/-- Witness for C3 at the concrete input `"hi!"` (normalized length 3). -/
theorem c3_witness :
    (extractKeywords true (ApiOutcome.ok "apple, banana".toList) "hi!".toList 5).keywords = [] ∧
    (extractKeywords true (ApiOutcome.ok "apple, banana".toList) "hi!".toList 5).method =
      "empty_text" :=
  ⟨(c3_empty_text_short_circuit true (ApiOutcome.ok "apple, banana".toList)
      "hi!".toList 5 (by decide)).1,
   (c3_empty_text_short_circuit true (ApiOutcome.ok "apple, banana".toList)
      "hi!".toList 5 (by decide)).2.1⟩

/-! ## Claim C2: remote-failure degradation -/

/-- C2: when the remote path is attempted (text long enough, key configured)
and the remote call fails in any of the enumerated ways, `extract_keywords`
returns a result whose method is `fallback` or `fallback_error`; no failure
propagates (the embedding of `extract_keywords` is a total function). -/
theorem c2_remote_failure_degrades (outcome : ApiOutcome) (text : List Char)
    (maxKeywords : Int)
    (h10 : ¬ (pyStrip (cleanText text)).length < 10)
    (hfail : remoteFailure outcome maxKeywords) :
    (extractKeywords true outcome text maxKeywords).method = "fallback" ∨
    (extractKeywords true outcome text maxKeywords).method = "fallback_error" := by
  have hbase : ∀ o, callOpenrouterKeywords o maxKeywords = [] →
      (extractKeywords true o text maxKeywords).method = "fallback" ∨
      (extractKeywords true o text maxKeywords).method = "fallback_error" := by
    intro o ho
    unfold extractKeywords
    rw [if_neg h10]
    cases o
    all_goals simp [ho]
  rcases hfail with h | h | h | h | h | h | h | h | ⟨content, h, ho⟩ <;> subst h
  all_goals first
    | exact hbase _ rfl
    | exact hbase _ ho

/-- Witness for C2: a timeout on a long-enough text degrades to
`fallback`. -/
theorem c2_witness :
    (extractKeywords true ApiOutcome.timeout
        "urgent: vessel safety inspection".toList 5).method = "fallback" ∨
    (extractKeywords true ApiOutcome.timeout
        "urgent: vessel safety inspection".toList 5).method = "fallback_error" :=
  c2_remote_failure_degrades ApiOutcome.timeout
    "urgent: vessel safety inspection".toList 5 (by decide)
    (by unfold remoteFailure; simp)

/-! ## Claim C1: extraction bound -/

/-- C1 as stated is false: `max_keywords` is a Python `int`, and on the
remote path the bound is applied with slicing (`keywords[:max_keywords]`,
line 219), which for a negative bound drops elements from the end instead
of limiting the length.  With `max_keywords = -1` and three parsed keywords
the result has two keywords, and `2 ≤ -1` fails. -/
theorem c1_counterexample :
    ¬ (((extractKeywords true (ApiOutcome.ok "apple, banana, cherry".toList)
          "important meeting schedule today".toList (-1)).keywords.length : Int) ≤ -1) := by
  decide

/-- `l[:n]` never yields more than `n` elements when `n ≥ 0`. -/
theorem pySlice_length_le {α : Type} (n : Int) (l : List α) (h : 0 ≤ n) :
    ((pySlice n l).length : Int) ≤ n := by
  unfold pySlice
  rw [if_pos h]
  have := List.length_take_le n.toNat l
  omega

/-- `most_common(n)` never yields more than `n` elements (for `n ≤ 0` it
yields none, as `heapq.nlargest` does). -/
theorem mostCommon_length_le (n : Int) (words : List (List Char)) :
    ((mostCommon n words).length : Int) ≤ max n 0 := by
  unfold mostCommon
  have := List.length_take_le n.toNat
    ((List.insertionSort statLE (wordStats words)).map WordStat.word)
  omega

/-- C1 amended: for every non-negative `maxKeywords` the keyword list of the
result is bounded by `maxKeywords` on every path (empty-text, remote,
fallback, fallback-error). -/
theorem c1_amended_keyword_bound (apiKey : Bool) (outcome : ApiOutcome)
    (text : List Char) (maxKeywords : Int) (h : 0 ≤ maxKeywords) :
    (((extractKeywords apiKey outcome text maxKeywords).keywords).length : Int) ≤
      maxKeywords := by
  have hfb : ∀ t, ((fallbackKeywordExtraction t maxKeywords).length : Int) ≤ maxKeywords := by
    intro t
    have := mostCommon_length_le maxKeywords (allWords (cleanText t))
    unfold fallbackKeywordExtraction
    omega
  have hcall : ∀ o, ((callOpenrouterKeywords o maxKeywords).length : Int) ≤ maxKeywords := by
    intro o
    cases o
    case ok content =>
      unfold callOpenrouterKeywords
      show ((if pyStrip content ≠ [] then pySlice maxKeywords (parseKeywords content)
        else []).length : Int) ≤ maxKeywords
      rcases em (pyStrip content = []) with hc | hc
      · rw [if_neg]
        · simpa using h
        · simpa using hc
      · rw [if_pos hc]
        exact pySlice_length_le maxKeywords (parseKeywords content) h
    all_goals simpa [callOpenrouterKeywords] using h
  have hbr : ∀ o, (((if callOpenrouterKeywords o maxKeywords ≠ [] then
      (⟨callOpenrouterKeywords o maxKeywords, "openrouter"⟩ : KeywordExtractionResponse)
      else ⟨fallbackKeywordExtraction (cleanText text) maxKeywords,
        "fallback"⟩).keywords).length : Int) ≤ maxKeywords := by
    intro o
    split
    · exact hcall o
    · exact hfb _
  unfold extractKeywords
  split
  · simpa using h
  · split
    · cases outcome
      case raised => exact hfb text
      all_goals exact hbr _
    · exact hfb _

/-! ## Strip lemmas -/

theorem stripEnds_head_not (p : Char → Bool) (l : List Char) (c : Char)
    (h : (stripEnds p l).head? = some c) : p c = false := by
  obtain ⟨t, ht⟩ := List.rdropWhile_prefix p (l.dropWhile p)
  rcases hX : stripEnds p l with _ | ⟨a, xs⟩
  · rw [hX] at h
    cases h
  · rw [hX] at h
    have hca : c = a := by
      injection h with h
      exact h.symm
    subst hca
    have hXr : List.rdropWhile p (l.dropWhile p) = c :: xs := hX
    rw [hXr] at ht
    have hu : List.dropWhile p (l.dropWhile p) = l.dropWhile p :=
      List.dropWhile_idempotent p l
    rw [← ht, List.cons_append, List.dropWhile_cons] at hu
    rcases hpc : p c with _ | _
    · rfl
    · rw [hpc] at hu
      simp only [if_true] at hu
      have hlen := (@List.dropWhile_sublist _ (xs ++ t) p).length_le
      rw [hu] at hlen
      simp at hlen

theorem stripEnds_last_not (p : Char → Bool) (l : List Char) (c : Char)
    (h : (stripEnds p l).getLast? = some c) : p c = false := by
  have hne : List.rdropWhile p (l.dropWhile p) ≠ [] := by
    intro hh
    have : stripEnds p l = [] := hh
    rw [this] at h
    cases h
  have hlast := List.rdropWhile_last_not p (l.dropWhile p) hne
  have heq : (stripEnds p l).getLast? =
      some ((List.rdropWhile p (l.dropWhile p)).getLast hne) :=
    List.getLast?_eq_getLast _ hne
  rw [heq] at h
  injection h with h
  rw [h] at hlast
  simpa using hlast

theorem stripEnds_subset (p : Char → Bool) (l : List Char) (c : Char)
    (h : c ∈ stripEnds p l) : c ∈ l := by
  have h1 : c ∈ List.rdropWhile p (l.dropWhile p) := h
  unfold List.rdropWhile at h1
  rw [List.mem_reverse] at h1
  have h2 := (@List.dropWhile_sublist _ (l.dropWhile p).reverse p).subset h1
  rw [List.mem_reverse] at h2
  exact (@List.dropWhile_sublist _ l p).subset h2

theorem stripEnds_idem (p : Char → Bool) (l : List Char) :
    stripEnds p (stripEnds p l) = stripEnds p l := by
  have h2 : (stripEnds p l).dropWhile p = stripEnds p l := by
    rcases hX : stripEnds p l with _ | ⟨a, xs⟩
    · simp
    · have hpa : p a = false := stripEnds_head_not p l a (by rw [hX]; rfl)
      rw [List.dropWhile_cons, hpa]
      simp
  show List.rdropWhile p ((stripEnds p l).dropWhile p) = stripEnds p l
  rw [h2]
  show List.rdropWhile p (List.rdropWhile p (l.dropWhile p)) = stripEnds p l
  rw [List.rdropWhile_idempotent]
  rfl

/-! ## Character-class invariants of the normalizer -/

theorem collapseSpacesAux_chars (l : List Char) :
    ∀ (b : Bool) (c : Char), c ∈ collapseSpacesAux b l →
      (c ∈ l ∧ isSpaceChar c = false) ∨ c = ' ' := by
  induction l with
  | nil =>
    intro b c hc
    simp [collapseSpacesAux] at hc
  | cons a rest ih =>
    intro b c hc
    simp only [collapseSpacesAux] at hc
    by_cases ha : isSpaceChar a
    · rw [if_pos ha] at hc
      cases b with
      | true =>
        rcases ih true c hc with ⟨h1, h2⟩ | h
        · exact Or.inl ⟨List.mem_cons_of_mem a h1, h2⟩
        · exact Or.inr h
      | false =>
        rcases List.mem_cons.mp hc with h | h
        · exact Or.inr h
        · rcases ih true c h with ⟨h1, h2⟩ | hh
          · exact Or.inl ⟨List.mem_cons_of_mem a h1, h2⟩
          · exact Or.inr hh
    · rw [if_neg ha] at hc
      rcases List.mem_cons.mp hc with h | h
      · subst h
        exact Or.inl ⟨List.mem_cons_self _ _, by simpa using ha⟩
      · rcases ih false c h with ⟨h1, h2⟩ | hh
        · exact Or.inl ⟨List.mem_cons_of_mem a h1, h2⟩
        · exact Or.inr hh

theorem removeIsolatedAux_subset (l : List Char) :
    ∀ (prev : Option Char) (c : Char), c ∈ removeIsolatedAux prev l → c ∈ l := by
  induction l with
  | nil =>
    intro prev c hc
    simp [removeIsolatedAux] at hc
  | cons a rest ih =>
    intro prev c hc
    simp only [removeIsolatedAux] at hc
    by_cases hiso : isIsolatedLetter prev a rest.head?
    · rw [if_pos hiso] at hc
      exact List.mem_cons_of_mem a (ih (some a) c hc)
    · rw [if_neg hiso] at hc
      rcases List.mem_cons.mp hc with h | h
      · exact h ▸ List.mem_cons_self _ _
      · exact List.mem_cons_of_mem a (ih (some a) c h)

theorem filterSpecialChars_chars (l : List Char) (c : Char)
    (h : c ∈ filterSpecialChars l) : allowedChar c = true := by
  unfold filterSpecialChars at h
  rcases List.mem_map.mp h with ⟨a, _, ha⟩
  by_cases haa : allowedChar a
  · rw [if_pos haa] at ha
    rw [← ha]
    exact haa
  · rw [if_neg haa] at ha
    rw [← ha]
    decide

theorem flushDividerRun_chars (runRev : List Char) (c : Char)
    (h : c ∈ flushDividerRun runRev) : c ∈ runRev ∨ c = ' ' := by
  unfold flushDividerRun at h
  split at h
  · rcases List.mem_singleton.mp h with h
    exact Or.inr h
  · exact Or.inl (List.mem_reverse.mp h)

theorem collapseDividersAux_chars (l : List Char) :
    ∀ (runRev : List Char) (c : Char), c ∈ collapseDividersAux runRev l →
      c ∈ runRev ∨ c ∈ l ∨ c = ' ' := by
  induction l with
  | nil =>
    intro runRev c hc
    simp only [collapseDividersAux] at hc
    rcases flushDividerRun_chars runRev c hc with h | h
    · exact Or.inl h
    · exact Or.inr (Or.inr h)
  | cons a rest ih =>
    intro runRev c hc
    simp only [collapseDividersAux] at hc
    by_cases ha : isDashEq a
    · rw [if_pos ha] at hc
      rcases ih (a :: runRev) c hc with h | h | h
      · rcases List.mem_cons.mp h with h | h
        · exact Or.inr (Or.inl (h ▸ List.mem_cons_self _ _))
        · exact Or.inl h
      · exact Or.inr (Or.inl (List.mem_cons_of_mem a h))
      · exact Or.inr (Or.inr h)
    · rw [if_neg ha] at hc
      rcases List.mem_append.mp hc with h | h
      · rcases flushDividerRun_chars runRev c h with h | h
        · exact Or.inl h
        · exact Or.inr (Or.inr h)
      · rcases List.mem_cons.mp h with h | h
        · exact Or.inr (Or.inl (h ▸ List.mem_cons_self _ _))
        · rcases ih [] c h with hh | hh | hh
          · simp at hh
          · exact Or.inr (Or.inl (List.mem_cons_of_mem a hh))
          · exact Or.inr (Or.inr hh)

/-- Every character of a normalized text is an allowed non-whitespace
character or the single space: steps 7-9 establish it, steps 10-11 only
delete characters. -/
theorem cleanText_chars (text : List Char) (c : Char) (h : c ∈ cleanText text) :
    (allowedChar c = true ∧ isSpaceChar c = false) ∨ c = ' ' := by
  unfold cleanText at h
  split at h
  · simp at h
  · have h1 := stripEnds_subset isSpaceChar _ c h
    have h2 := removeIsolatedAux_subset _ none c h1
    rcases collapseSpacesAux_chars _ false c h2 with ⟨h3, hns⟩ | hsp
    · rcases collapseDividersAux_chars _ [] c h3 with hh | hh | hh
      · simp at hh
      · exact Or.inl ⟨filterSpecialChars_chars _ c hh, hns⟩
      · exact Or.inr hh
    · exact Or.inr hsp

/-! ## Claim C10: normalizer output whitespace discipline -/

/-- C10: the normalizer's output contains no newline, carriage return or
tab; every whitespace character remaining in it is the ASCII space; and it
has no leading or trailing whitespace (stripping it again is the
identity). -/
theorem c10_normalizer_whitespace (text : List Char) :
    (cleanText text).contains '\n' = false ∧
    (cleanText text).contains '\r' = false ∧
    (cleanText text).contains '\t' = false ∧
    (cleanText text).all (fun c => !isSpaceChar c || c == ' ') = true ∧
    pyStrip (cleanText text) = cleanText text := by
  have hmem : ∀ c, c ∈ cleanText text → isSpaceChar c = true → c = ' ' := by
    intro c hc hs
    rcases cleanText_chars text c hc with ⟨_, h2⟩ | h
    · rw [hs] at h2
      cases h2
    · exact h
  have hnot : ∀ c : Char, isSpaceChar c = true → c ≠ ' ' → c ∉ cleanText text := by
    intro c hs hne hc
    exact hne (hmem c hc hs)
  refine ⟨by simpa using hnot '\n' (by decide) (by decide),
          by simpa using hnot '\r' (by decide) (by decide),
          by simpa using hnot '\t' (by decide) (by decide),
          ?_, ?_⟩
  · rw [List.all_eq_true]
    intro c hc
    rcases hs : isSpaceChar c with _ | _
    · simp
    · have := hmem c hc hs
      simp [this]
  · unfold cleanText
    split
    · rfl
    · exact stripEnds_idem isSpaceChar _

/-! ## Stability predicates and no-op lemmas for the normalizer -/

theorem scanSub_eq_self (f : List Char → Option Nat) (repl : List Char)
    (l : List Char) (h : ∀ s ∈ l.tails, f s = none) : scanSub f repl l = l := by
  induction l with
  | nil => rfl
  | cons c rest ih =>
    have hhead : f (c :: rest) = none := by
      refine h _ ?_
      rw [List.mem_tails]
    have hrest : scanSubAux f repl 0 rest = rest := by
      refine ih fun s hs => h s ?_
      rw [List.mem_tails] at hs ⊢
      exact hs.trans (List.suffix_cons c rest)
    show scanSubAux f repl 0 (c :: rest) = c :: rest
    simp only [scanSubAux, hhead, hrest]

theorem tagMatch_mem {s : List Char} {n : Nat} (h : tagMatch s = some n) :
    '<' ∈ s := by
  unfold tagMatch at h
  split at h
  · exact List.mem_cons_self _ _
  · cases h

theorem angleEmailMatch_mem {s : List Char} {n : Nat}
    (h : angleEmailMatch s = some n) : '<' ∈ s := by
  unfold angleEmailMatch at h
  split at h
  · exact List.mem_cons_self _ _
  · cases h

theorem emailMatch_mem {s : List Char} {n : Nat} (h : emailMatch s = some n) :
    '@' ∈ s := by
  simp only [emailMatch] at h
  split at h
  · cases h
  · split at h
    · rename_i r2 heq
      have : '@' ∈ s.drop (s.takeWhile isLocalChar).length := by
        rw [heq]
        exact List.mem_cons_self _ _
      exact List.drop_subset _ _ this
    · cases h

theorem httpMatch_mem {s : List Char} {n : Nat} (h : httpMatch s = some n) :
    '/' ∈ s := by
  unfold httpMatch at h
  split at h
  · split at h
    · simp
    · simp
    · cases h
  · cases h

/-- `l.map f = l` when `f` fixes every element of `l`. -/
theorem map_eq_self_of_fix {f : Char → Char} : ∀ {l : List Char},
    (∀ c ∈ l, f c = c) → l.map f = l
  | [], _ => rfl
  | c :: rest, h => by
    rw [List.map_cons, h c (List.mem_cons_self _ _),
      map_eq_self_of_fix fun d hd => h d (List.mem_cons_of_mem c hd)]

theorem replaceCRLF_eq_self {l : List Char} (h : '\r' ∉ l) : replaceCRLF l = l := by
  induction l using replaceCRLF.induct with
  | case1 rest ih => simp at h
  | case2 c rest hne ih =>
    rw [replaceCRLF]
    · rw [ih fun hr => h (List.mem_cons_of_mem c hr)]
    · exact hne
  | case3 => rfl

theorem replaceCR_eq_self {l : List Char} (h : '\r' ∉ l) : replaceCR l = l := by
  refine map_eq_self_of_fix fun c hc => ?_
  rw [if_neg]
  intro hh
  exact h (hh ▸ hc)

theorem collapseNewlinesAux_eq_self {l : List Char} (h : '\n' ∉ l) :
    ∀ b, collapseNewlinesAux b l = l := by
  induction l with
  | nil => intro b; rfl
  | cons c rest ih =>
    intro b
    have hc : ¬ c = '\n' := fun hh => h (hh ▸ List.mem_cons_self _ _)
    simp only [collapseNewlinesAux, if_neg hc]
    rw [ih fun hr => h (List.mem_cons_of_mem c hr)]

theorem tabToSpace_eq_self {l : List Char} (h : '\t' ∉ l) : tabToSpace l = l := by
  refine map_eq_self_of_fix fun c hc => ?_
  rw [if_neg]
  intro hh
  exact h (hh ▸ hc)

theorem filterSpecialChars_eq_self {l : List Char}
    (h : ∀ c ∈ l, allowedChar c = true) : filterSpecialChars l = l :=
  map_eq_self_of_fix fun c hc => by rw [if_pos (h c hc)]

theorem noLongDividerRun_tail {a : Char} {l : List Char}
    (h : noLongDividerRun (a :: l) = true) : noLongDividerRun l = true := by
  unfold noLongDividerRun at h ⊢
  rw [List.tails_cons, List.all_cons] at h
  simp only [Bool.and_eq_true] at h
  exact h.2

theorem noDoubleSpace_tail {a : Char} {l : List Char}
    (h : noDoubleSpace (a :: l) = true) : noDoubleSpace l = true := by
  unfold noDoubleSpace at h ⊢
  rw [List.tails_cons, List.all_cons] at h
  simp only [Bool.and_eq_true] at h
  exact h.2

theorem noLongDividerRun_leadDash {l : List Char}
    (h : noLongDividerRun l = true) : (l.takeWhile isDashEq).length ≤ 2 := by
  rcases l with _ | ⟨a, _ | ⟨b, _ | ⟨c, rest⟩⟩⟩
  · simp
  · have := (@List.takeWhile_sublist _ [a] isDashEq).length_le
    simp at this
    omega
  · have := (@List.takeWhile_sublist _ [a, b] isDashEq).length_le
    simp at this
    omega
  · by_cases da : isDashEq a
    · by_cases db : isDashEq b
      · by_cases dc : isDashEq c
        · exfalso
          have hh := List.all_eq_true.mp h (a :: b :: c :: rest) (by
            rw [List.mem_tails])
          simp [da, db, dc] at hh
        · simp [List.takeWhile_cons, da, db, dc]
      · simp [List.takeWhile_cons, da, db]
    · simp [List.takeWhile_cons, da]

theorem collapseDividersAux_append (l : List Char) :
    ∀ runRev : List Char, noLongDividerRun l = true →
      runRev.length + (l.takeWhile isDashEq).length ≤ 2 →
      collapseDividersAux runRev l = runRev.reverse ++ l := by
  induction l with
  | nil =>
    intro runRev _ hlen
    simp only [collapseDividersAux, flushDividerRun]
    rw [if_neg]
    · simp
    · simp at hlen
      omega
  | cons a rest ih =>
    intro runRev hnl hlen
    simp only [collapseDividersAux]
    by_cases ha : isDashEq a
    · rw [if_pos ha]
      rw [List.takeWhile_cons, if_pos ha] at hlen
      have h1 : (a :: runRev).length + (rest.takeWhile isDashEq).length ≤ 2 := by
        simp only [List.length_cons] at hlen ⊢
        omega
      rw [ih (a :: runRev) (noLongDividerRun_tail hnl) h1]
      simp
    · rw [if_neg ha]
      have h2 := ih [] (noLongDividerRun_tail hnl)
        (by simpa using noLongDividerRun_leadDash (noLongDividerRun_tail hnl))
      rw [h2]
      unfold flushDividerRun
      rw [if_neg]
      · simp
      · omega

theorem collapseDividers_eq_self {l : List Char}
    (h : noLongDividerRun l = true) : collapseDividers l = l := by
  have := collapseDividersAux_append l [] h
    (by simpa using noLongDividerRun_leadDash h)
  simpa [collapseDividers] using this

theorem collapseSpacesAux_eq_self {l : List Char}
    (hall : ∀ c ∈ l, isSpaceChar c = true → c = ' ')
    (hnd : noDoubleSpace l = true) : collapseSpacesAux false l = l := by
  induction l with
  | nil => rfl
  | cons c rest ih =>
    have ihr : collapseSpacesAux false rest = rest :=
      ih (fun d hd hs => hall d (List.mem_cons_of_mem c hd) hs)
        (noDoubleSpace_tail hnd)
    by_cases hc : isSpaceChar c
    · have hc' : c = ' ' := hall c (List.mem_cons_self _ _) hc
      have htail : collapseSpacesAux true rest = rest := by
        cases rest with
        | nil => rfl
        | cons d r =>
          have hd : ¬ isSpaceChar d = true := by
            intro hds
            have hh := List.all_eq_true.mp hnd (c :: d :: r) (by
              rw [List.mem_tails])
            simp [hc, hds] at hh
          simp only [collapseSpacesAux, if_neg hd] at ihr ⊢
          exact ihr
      simp only [collapseSpacesAux, if_pos hc, htail]
      simp [hc']
    · simp only [collapseSpacesAux, if_neg hc]
      rw [ihr]

theorem removeIsolatedAux_eq_self (l : List Char) :
    ∀ prev, hasIsolatedAux prev l = false → removeIsolatedAux prev l = l := by
  induction l with
  | nil => intro prev _; rfl
  | cons c rest ih =>
    intro prev h
    simp only [hasIsolatedAux, Bool.or_eq_false_iff] at h
    simp only [removeIsolatedAux, ih (some c) h.2, h.1, Bool.false_eq_true, if_false]

/-- Stripping a normalized text again is the identity (step 11 is the last
step of the pipeline and stripping is idempotent). -/
theorem cleanText_pyStrip (text : List Char) :
    pyStrip (cleanText text) = cleanText text := by
  unfold cleanText
  split
  · rfl
  · exact stripEnds_idem isSpaceChar _

/-! ## Claim C5: normalization idempotence -/

/-- C5 as stated is false: the isolated-single-letter removal (step 10) runs
after whitespace collapsing (step 9), so deleting the letters of
`"ship a b dock"` leaves the three consecutive spaces of `"ship   dock"`,
which a second normalization collapses. -/
theorem c5_counterexample :
    cleanText (cleanText "ship a b dock".toList) ≠ cleanText "ship a b dock".toList := by
  decide

/-- C5 amended: normalization is idempotent on every input whose normalized
form is stable for the four shape-sensitive steps: no two adjacent
whitespace characters, no run of three or more `-`/`=`, no `www.`
immediately followed by a non-space, and no isolated single ASCII letter.
The first two hypotheses exclude real failures (the isolated-letter removal
of step 10 runs after the collapsing steps 8-9 and can recreate their
patterns: `"ship a b dock"` normalizes to `"ship   dock"`, `"-a-b- q"` to
`"---"`, and a second pass collapses both); the last two are defensive — no
normalized text violating them is known, but discharging them would need a
separate invariant argument about steps 4 and 10.  All other steps are
proved to be the identity on every normalized text, via the
character-class invariant `cleanText_chars`. -/
theorem c5_amended_idempotent_on_stable (x : List Char)
    (h1 : noDoubleSpace (cleanText x) = true)
    (h2 : noLongDividerRun (cleanText x) = true)
    (h3 : wwwFree (cleanText x) = true)
    (h4 : hasIsolatedAux none (cleanText x) = false) :
    cleanText (cleanText x) = cleanText x := by
  have hchars := cleanText_chars x
  have hAllowed : ∀ c ∈ cleanText x, allowedChar c = true := by
    intro c hc
    rcases hchars c hc with ⟨h, _⟩ | h
    · exact h
    · rw [h]
      decide
  have habs : ∀ X : Char, allowedChar X = false → X ∉ cleanText x := by
    intro X hX hmem
    have := hAllowed X hmem
    rw [hX] at this
    cases this
  have hspace : ∀ c ∈ cleanText x, isSpaceChar c = true → c = ' ' := by
    intro c hc hs
    rcases hchars c hc with ⟨_, h⟩ | h
    · rw [hs] at h
      cases h
    · exact h
  have hnospace : ∀ X : Char, isSpaceChar X = true → X ≠ ' ' → X ∉ cleanText x := by
    intro X hs hne hmem
    exact hne (hspace X hmem hs)
  have hr : '\r' ∉ cleanText x := hnospace '\r' (by decide) (by decide)
  have hn : '\n' ∉ cleanText x := hnospace '\n' (by decide) (by decide)
  have htab : '\t' ∉ cleanText x := hnospace '\t' (by decide) (by decide)
  have hlt : '<' ∉ cleanText x := habs '<' (by decide)
  have hat : '@' ∉ cleanText x := habs '@' (by decide)
  have hsl : '/' ∉ cleanText x := habs '/' (by decide)
  have hsub : ∀ s, s ∈ (cleanText x).tails → ∀ c ∈ s, c ∈ cleanText x := by
    intro s hs c hc
    rw [List.mem_tails] at hs
    exact hs.subset hc
  have etags : removeTags (cleanText x) = cleanText x := by
    refine scanSub_eq_self _ _ _ fun s hs => ?_
    rcases hm : tagMatch s with _ | n
    · rfl
    · exact absurd (hsub s hs '<' (tagMatch_mem hm)) hlt
  have eangle : removeAngleEmails (cleanText x) = cleanText x := by
    refine scanSub_eq_self _ _ _ fun s hs => ?_
    rcases hm : angleEmailMatch s with _ | n
    · rfl
    · exact absurd (hsub s hs '<' (angleEmailMatch_mem hm)) hlt
  have eemail : removeEmails (cleanText x) = cleanText x := by
    refine scanSub_eq_self _ _ _ fun s hs => ?_
    rcases hm : emailMatch s with _ | n
    · rfl
    · exact absurd (hsub s hs '@' (emailMatch_mem hm)) hat
  have ehttp : removeHttpUrls (cleanText x) = cleanText x := by
    refine scanSub_eq_self _ _ _ fun s hs => ?_
    rcases hm : httpMatch s with _ | n
    · rfl
    · exact absurd (hsub s hs '/' (httpMatch_mem hm)) hsl
  have ewww : removeWwwUrls (cleanText x) = cleanText x := by
    refine scanSub_eq_self _ _ _ fun s hs => ?_
    have := List.all_eq_true.mp h3 s hs
    simpa [Option.isNone_iff_eq_none] using this
  have hstrip := cleanText_pyStrip x
  set y := cleanText x with hy
  rcases em (y = []) with hy0 | hy0
  · rw [hy0]
    rfl
  · have enl : collapseNewlines y = y := collapseNewlinesAux_eq_self hn false
    have esp : collapseSpaces y = y := collapseSpacesAux_eq_self hspace h1
    have eiso : removeIsolatedLetters y = y := removeIsolatedAux_eq_self y none h4
    show cleanText y = y
    unfold cleanText
    rw [if_neg hy0]
    rw [replaceCRLF_eq_self hr, replaceCR_eq_self hr, etags, eangle, eemail,
      ehttp, ewww, enl, tabToSpace_eq_self htab,
      filterSpecialChars_eq_self hAllowed, collapseDividers_eq_self h2,
      esp, eiso]
    exact hstrip

/-- Witness for the amended C5 at a concrete stable input. -/
theorem c5_witness :
    cleanText (cleanText "hello world 123 test".toList) =
      cleanText "hello world 123 test".toList :=
  c5_amended_idempotent_on_stable "hello world 123 test".toList
    (by decide) (by decide) (by decide) (by decide)

/-- Witness for the amended C1 at a concrete input. -/
theorem c1_witness :
    (0 : Int) ≤ 3 ∧
    (((extractKeywords true (ApiOutcome.ok "apple, banana, cherry".toList)
        "important meeting schedule today".toList 3).keywords).length : Int) ≤ 3 :=
  ⟨by decide,
   c1_amended_keyword_bound true (ApiOutcome.ok "apple, banana, cherry".toList)
     "important meeting schedule today".toList 3 (by decide)⟩

/-! ## Claim C8: parser post-filter -/

/-- C8: the parsed keyword list is the in-order `filterMap` of the
candidate list through the cleanup (so order is preserved and nothing is
deduplicated or sorted), and every surviving token has length at least 2
with word-or-Hangul characters at both ends (the leading and trailing
non-word runs having been stripped). -/
theorem c8_parser_postfilter (content : List Char) :
    parseKeywords content = (rawKeywords content).filterMap cleanKeyword ∧
    ∀ kw ∈ parseKeywords content,
      2 ≤ kw.length ∧
      (∀ c, kw.head? = some c → (isWordChar c || isHangul c) = true) ∧
      (∀ c, kw.getLast? = some c → (isWordChar c || isHangul c) = true) := by
  refine ⟨rfl, ?_⟩
  intro kw hkw
  rcases List.mem_filterMap.mp hkw with ⟨a, _, hclean⟩
  simp only [cleanKeyword] at hclean
  split at hclean
  · rename_i hlen
    have hkw' : stripNonWordEnds a = kw := by
      injection hclean
    refine ⟨hkw' ▸ hlen, ?_, ?_⟩
    · intro c hc
      rw [← hkw'] at hc
      have hh : (!(isWordChar c || isHangul c)) = false :=
        stripEnds_head_not (fun c => !(isWordChar c || isHangul c)) a c hc
      rcases hb : (isWordChar c || isHangul c) with _ | _
      · rw [hb] at hh
        simp at hh
      · rfl
    · intro c hc
      rw [← hkw'] at hc
      have hh : (!(isWordChar c || isHangul c)) = false :=
        stripEnds_last_not (fun c => !(isWordChar c || isHangul c)) a c hc
      rcases hb : (isWordChar c || isHangul c) with _ | _
      · rw [hb] at hh
        simp at hh
      · rfl
  · cases hclean

/-- Witness for C8 at the concrete parse of `"apple, banana!!"`. -/
theorem c8_witness :
    2 ≤ "apple".toList.length ∧ (isWordChar 'a' || isHangul 'a') = true :=
  ⟨(c8_parser_postfilter "apple, banana!!".toList |>.2 "apple".toList (by decide)).1,
   (c8_parser_postfilter "apple, banana!!".toList |>.2 "apple".toList
      (by decide)).2.1 'a' (by decide)⟩

/-! ## Claim C4: the dedup gate -/

/-- C4: `check_duplicate_by_content_hash` consults the first stored row
matching the recomputed fingerprint or the message id; a match yields
`(true, decoded keywords)`, with a NULL/empty/undecodable payload degrading
to `(true, [])` rather than failing; no match yields `(false, [])`; and the
decision is determined by the first matching row alone (rows behind it are
never consulted), non-matching rows being skipped. -/
theorem c4_dedup_gate (hashFn : String → String)
    (dec : String → Option (List String)) (st : DbState)
    (mailId content : String) :
    (fetchOneDup st (hashFn content) mailId = none →
      checkDuplicateByContentHash hashFn dec st mailId content = (false, [])) ∧
    (∀ r, fetchOneDup st (hashFn content) mailId = some r →
      (checkDuplicateByContentHash hashFn dec st mailId content).1 = true ∧
      ((r.keywords = none ∨ r.keywords = some "" ∨
          ∃ s, r.keywords = some s ∧ dec s = none) →
        (checkDuplicateByContentHash hashFn dec st mailId content).2 = []) ∧
      (∀ s ks, r.keywords = some s → s ≠ "" → dec s = some ks →
        (checkDuplicateByContentHash hashFn dec st mailId content).2 = ks)) ∧
    (∀ r rest, dupRowMatches (hashFn content) mailId r = true →
      checkDuplicateByContentHash hashFn dec ⟨st.accounts, r :: rest⟩ mailId content =
        checkDuplicateByContentHash hashFn dec ⟨st.accounts, [r]⟩ mailId content) ∧
    (∀ r rest, dupRowMatches (hashFn content) mailId r = false →
      checkDuplicateByContentHash hashFn dec ⟨st.accounts, r :: rest⟩ mailId content =
        checkDuplicateByContentHash hashFn dec ⟨st.accounts, rest⟩ mailId content) := by
  refine ⟨?_, ?_, ?_, ?_⟩
  · intro hnone
    unfold checkDuplicateByContentHash
    rw [hnone]
  · intro r hsome
    refine ⟨?_, ?_, ?_⟩
    · rcases hk : r.keywords with _ | s
      · simp [checkDuplicateByContentHash, hsome, hk]
      · rcases em (s = "") with hs | hs
        · simp [checkDuplicateByContentHash, hsome, hk, hs]
        · rcases hd : dec s with _ | ks
          · simp [checkDuplicateByContentHash, hsome, hk, hs, hd]
          · simp [checkDuplicateByContentHash, hsome, hk, hs, hd]
    · intro hbad
      rcases hbad with hk | hk | ⟨s, hk, hd⟩
      · simp [checkDuplicateByContentHash, hsome, hk]
      · simp [checkDuplicateByContentHash, hsome, hk]
      · rcases em (s = "") with hs | hs
        · simp [checkDuplicateByContentHash, hsome, hk, hs]
        · simp [checkDuplicateByContentHash, hsome, hk, hs, hd]
    · intro s ks hk hs hd
      simp [checkDuplicateByContentHash, hsome, hk, hs, hd]
  · intro r rest hmatch
    unfold checkDuplicateByContentHash fetchOneDup
    simp only [List.find?_cons_of_pos _ hmatch]
  · intro r rest hmatch
    unfold checkDuplicateByContentHash fetchOneDup
    have hm : ¬ dupRowMatches (hashFn content) mailId r = true := by
      rw [hmatch]
      simp
    simp only [List.find?_cons_of_neg _ hm]

/-- Witness for C4: a stored row with an undecodable keyword payload still
yields `isDuplicate = true` with empty keywords. -/
theorem c4_witness :
    (checkDuplicateByContentHash (fun _ => "HH") (fun _ => none)
        ⟨[], [⟨7, "m9", "t", "subj", "snd", some "notjson", "p", "HH"⟩]⟩ "m1" "body").1 = true ∧
    (checkDuplicateByContentHash (fun _ => "HH") (fun _ => none)
        ⟨[], [⟨7, "m9", "t", "subj", "snd", some "notjson", "p", "HH"⟩]⟩ "m1" "body").2 = [] := by
  have h := (c4_dedup_gate (fun _ => "HH") (fun _ => none)
      ⟨[], [⟨7, "m9", "t", "subj", "snd", some "notjson", "p", "HH"⟩]⟩ "m1" "body").2.1
      ⟨7, "m9", "t", "subj", "snd", some "notjson", "p", "HH"⟩ (by rfl)
  exact ⟨h.1, h.2.1 (Or.inr (Or.inr ⟨"notjson", rfl, rfl⟩))⟩

/-! ## Claim C9: the persistence writer -/

/-- C9: `save_mail_with_hash` appends exactly one `mail_history` row; its
fingerprint is recomputed from the `clean_content` argument (whatever the
caller's record holds); its account id is the resolved internal identity;
an `int` reference passes through, a known string key resolves without
state change, and an unknown string key inserts one placeholder account
(warning-only path) whose fresh id the row carries. -/
theorem c9_save_recomputes_hash (enc : List String → String)
    (hashFn : String → String) (st : DbState) (pm : ProcessedMailData)
    (cleanContent : String) :
    ∃ row : MailHistoryRow,
      (saveMailWithHash enc hashFn st pm cleanContent).mail_history =
        st.mail_history ++ [row] ∧
      row.content_hash = hashFn cleanContent ∧
      row.message_id = pm.mail_id ∧
      row.keywords = some (enc pm.keywords) ∧
      row.account_id = (getActualAccountId st pm.account_id).1 ∧
      (saveMailWithHash enc hashFn st pm cleanContent).accounts =
        (getActualAccountId st pm.account_id).2.accounts ∧
      (∀ n, pm.account_id = Sum.inl n →
        getActualAccountId st pm.account_id = (n, st)) ∧
      (∀ uid a, pm.account_id = Sum.inr uid →
        st.accounts.find? (fun x => x.user_id = uid) = some a →
        getActualAccountId st pm.account_id = (a.id, st)) ∧
      (∀ uid, pm.account_id = Sum.inr uid →
        st.accounts.find? (fun x => x.user_id = uid) = none →
        getActualAccountId st pm.account_id =
          (freshAccountId st.accounts,
           ⟨st.accounts ++ [⟨freshAccountId st.accounts, uid,
             "Test User (" ++ uid ++ ")", true⟩], st.mail_history⟩)) := by
  have hmh : (getActualAccountId st pm.account_id).2.mail_history = st.mail_history := by
    rcases haid : pm.account_id with n | uid
    · rfl
    · unfold getActualAccountId
      rcases hf : st.accounts.find? (fun x => x.user_id = uid) with _ | a
      · simp only [hf]
      · simp only [hf]
  refine ⟨⟨(getActualAccountId st pm.account_id).1, pm.mail_id, pm.sent_time,
    pm.subject, pm.sender_address, some (enc pm.keywords), pm.processed_at,
    hashFn cleanContent⟩, ?_, rfl, rfl, rfl, rfl, rfl, ?_, ?_, ?_⟩
  · show (getActualAccountId st pm.account_id).2.mail_history ++ _ = _
    rw [hmh]
  · intro n hn
    rw [hn]
    rfl
  · intro uid a hu hf
    rw [hu]
    unfold getActualAccountId
    simp only [hf]
  · intro uid hu hf
    rw [hu]
    unfold getActualAccountId
    simp only [hf]

/-- Witness for C9: saving under an unknown account key creates exactly the
placeholder account with a fresh id. -/
theorem c9_witness :
    getActualAccountId ⟨[], []⟩ (Sum.inr "u1") =
      (1, ⟨[⟨1, "u1", "Test User (u1)", true⟩], []⟩) := by
  obtain ⟨row, h⟩ := c9_save_recomputes_hash (fun _ => "[]") (fun _ => "HH")
    ⟨[], []⟩ ⟨Sum.inr "u1", "m1", "t", "s", "a", [], "p"⟩ "body"
  exact h.2.2.2.2.2.2.2.2 "u1" rfl rfl

/-! ## Counter lemmas for the fallback extractor -/

theorem mem_firstUniqAux {w : List Char} :
    ∀ (l : List (List Char)) (seen : List (List Char)),
      w ∈ firstUniqAux seen l ↔ w ∈ l ∧ w ∉ seen := by
  intro l
  induction l with
  | nil => intro seen; simp [firstUniqAux]
  | cons a rest ih =>
    intro seen
    simp only [firstUniqAux]
    by_cases ha : a ∈ seen
    · rw [if_pos ha]
      rw [ih seen]
      constructor
      · rintro ⟨h1, h2⟩
        exact ⟨List.mem_cons_of_mem a h1, h2⟩
      · rintro ⟨h1, h2⟩
        rcases List.mem_cons.mp h1 with h | h
        · subst h
          exact absurd ha h2
        · exact ⟨h, h2⟩
    · rw [if_neg ha]
      constructor
      · intro h
        rcases List.mem_cons.mp h with h | h
        · subst h
          exact ⟨List.mem_cons_self _ _, ha⟩
        · rw [ih (a :: seen)] at h
          refine ⟨List.mem_cons_of_mem a h.1, fun hs => h.2 (List.mem_cons_of_mem a hs)⟩
      · rintro ⟨h1, h2⟩
        rcases List.mem_cons.mp h1 with h | h
        · subst h
          exact List.mem_cons_self _ _
        · by_cases hw : w = a
          · subst hw
            exact List.mem_cons_self _ _
          · refine List.mem_cons_of_mem a ?_
            rw [ih (a :: seen)]
            refine ⟨h, fun hs => ?_⟩
            rcases List.mem_cons.mp hs with hh | hh
            · exact hw hh
            · exact h2 hh

theorem mem_firstUniq {w : List Char} {l : List (List Char)} :
    w ∈ firstUniq l ↔ w ∈ l := by
  unfold firstUniq
  rw [mem_firstUniqAux]
  simp

theorem firstUniqAux_nodup :
    ∀ (l : List (List Char)) (seen : List (List Char)),
      (firstUniqAux seen l).Nodup := by
  intro l
  induction l with
  | nil => intro seen; simp [firstUniqAux]
  | cons a rest ih =>
    intro seen
    simp only [firstUniqAux]
    by_cases ha : a ∈ seen
    · rw [if_pos ha]
      exact ih seen
    · rw [if_neg ha]
      refine List.nodup_cons.mpr ⟨?_, ih (a :: seen)⟩
      intro hmem
      rw [mem_firstUniqAux] at hmem
      exact hmem.2 (List.mem_cons_self _ _)

theorem firstUniq_nodup (l : List (List Char)) : (firstUniq l).Nodup :=
  firstUniqAux_nodup l []

theorem attachStats_length (words : List (List Char)) :
    ∀ (u : List (List Char)) (i : Nat), (attachStats words i u).length = u.length := by
  intro u
  induction u with
  | nil => intro i; rfl
  | cons w rest ih =>
    intro i
    simp only [attachStats, List.length_cons, ih]

theorem attachStats_mem (words : List (List Char)) :
    ∀ (u : List (List Char)) (i : Nat) (it : WordStat),
      it ∈ attachStats words i u →
        it.word ∈ u ∧ it.cnt = words.count it.word ∧ i ≤ it.idx := by
  intro u
  induction u with
  | nil =>
    intro i it h
    simp [attachStats] at h
  | cons w rest ih =>
    intro i it h
    simp only [attachStats] at h
    rcases List.mem_cons.mp h with h | h
    · subst h
      exact ⟨List.mem_cons_self _ _, rfl, Nat.le_refl _⟩
    · obtain ⟨h1, h2, h3⟩ := ih (i + 1) it h
      exact ⟨List.mem_cons_of_mem w h1, h2, by omega⟩

theorem attachStats_surj (words : List (List Char)) :
    ∀ (u : List (List Char)) (i : Nat) (w : List Char), w ∈ u →
      ∃ it ∈ attachStats words i u, it.word = w := by
  intro u
  induction u with
  | nil =>
    intro i w h
    simp at h
  | cons a rest ih =>
    intro i w h
    rcases List.mem_cons.mp h with h | h
    · subst h
      exact ⟨⟨i, w, words.count w⟩, List.mem_cons_self _ _, rfl⟩
    · obtain ⟨it, hmem, hw⟩ := ih (i + 1) w h
      exact ⟨it, List.mem_cons_of_mem _ hmem, hw⟩

theorem attachStats_idx (words : List (List Char)) :
    ∀ (u : List (List Char)) (i : Nat) (it : WordStat), u.Nodup →
      it ∈ attachStats words i u → it.idx = i + firstIdx it.word u := by
  intro u
  induction u with
  | nil =>
    intro i it _ h
    simp [attachStats] at h
  | cons w rest ih =>
    intro i it hnd h
    simp only [attachStats] at h
    rcases List.mem_cons.mp h with h | h
    · subst h
      simp [firstIdx]
    · have hrest := (List.nodup_cons.mp hnd).2
      have hwrest := (List.nodup_cons.mp hnd).1
      have hitw : it.word ∈ rest := (attachStats_mem words rest (i + 1) it h).1
      have hne : ¬ w = it.word := fun hh => hwrest (hh ▸ hitw)
      simp only [firstIdx, if_neg hne]
      rw [ih (i + 1) it hrest h]
      omega

theorem attachStats_idx_lt (words : List (List Char)) :
    ∀ (u : List (List Char)) (i : Nat),
      List.Pairwise (fun a b : WordStat => a.idx < b.idx) (attachStats words i u) := by
  intro u
  induction u with
  | nil => intro i; simp [attachStats]
  | cons w rest ih =>
    intro i
    simp only [attachStats]
    refine List.pairwise_cons.mpr ⟨?_, ih (i + 1)⟩
    intro it hmem
    have := (attachStats_mem words rest (i + 1) it hmem).2.2
    simpa using by omega

theorem wordStats_fields (ws : List (List Char)) (it : WordStat)
    (hit : it ∈ wordStats ws) :
    it.cnt = ws.count it.word ∧ it.idx = firstIdx it.word (firstUniq ws) ∧
      it.word ∈ firstUniq ws := by
  obtain ⟨h1, h2, _⟩ := attachStats_mem ws (firstUniq ws) 0 it hit
  refine ⟨h2, ?_, h1⟩
  have := attachStats_idx ws (firstUniq ws) 0 it (firstUniq_nodup ws) hit
  simpa using this

theorem sorted_wordStats_rank (ws : List (List Char)) :
    List.Pairwise (fun a b : WordStat => wordRankLt ws a.word b.word)
      (List.insertionSort statLE (wordStats ws)) := by
  have hperm : List.Perm (List.insertionSort statLE (wordStats ws)) (wordStats ws) :=
    List.perm_insertionSort statLE (wordStats ws)
  have h1 : List.Pairwise statLE (List.insertionSort statLE (wordStats ws)) :=
    List.sorted_insertionSort statLE (wordStats ws)
  have h2 : List.Pairwise (fun a b : WordStat => a.idx ≠ b.idx) (wordStats ws) :=
    (attachStats_idx_lt ws (firstUniq ws) 0).imp fun h => Nat.ne_of_lt h
  have h3 : List.Pairwise (fun a b : WordStat => a.idx ≠ b.idx)
      (List.insertionSort statLE (wordStats ws)) :=
    (hperm.pairwise_iff fun h => Ne.symm h).mpr h2
  have hLT : List.Pairwise statLT (List.insertionSort statLE (wordStats ws)) := by
    refine (h1.and h3).imp ?_
    rintro a b ⟨hle, hne⟩
    rcases hle with h | ⟨hc, hi⟩
    · exact Or.inl h
    · exact Or.inr ⟨hc, Nat.lt_of_le_of_ne hi hne⟩
  refine hLT.imp_of_mem ?_
  intro a b ha hb hlt
  obtain ⟨ha1, ha2, _⟩ := wordStats_fields ws a (hperm.mem_iff.mp ha)
  obtain ⟨hb1, hb2, _⟩ := wordStats_fields ws b (hperm.mem_iff.mp hb)
  unfold statLT at hlt
  unfold wordRankLt
  rw [← ha1, ← ha2, ← hb1, ← hb2]
  exact hlt

/-! ## Claim C6: the fallback extractor -/

/-- C6: the fallback extractor is a pure function of the normalized text
(its embedding is a function, so repeated calls agree definitionally) that
pools the three token classes (`allWords`), counts frequency, and returns
the top `maxKeywords` tokens by descending frequency with ties broken by
first occurrence: the result has exactly `min maxKeywords #distinct`
tokens, is strictly ordered by rank, draws its tokens from the pool, and
every pooled token left out ranks below every token returned. -/
theorem c6_fallback_top_frequencies (text : List Char) (k : Int) :
    (fallbackKeywordExtraction text k).length =
      min k.toNat (firstUniq (allWords (cleanText text))).length ∧
    List.Pairwise (wordRankLt (allWords (cleanText text)))
      (fallbackKeywordExtraction text k) ∧
    (∀ w ∈ fallbackKeywordExtraction text k, w ∈ allWords (cleanText text)) ∧
    (∀ w ∈ firstUniq (allWords (cleanText text)),
      w ∉ fallbackKeywordExtraction text k →
      ∀ v ∈ fallbackKeywordExtraction text k,
        wordRankLt (allWords (cleanText text)) v w) := by
  have hperm : List.Perm
      (List.insertionSort statLE (wordStats (allWords (cleanText text))))
      (wordStats (allWords (cleanText text))) :=
    List.perm_insertionSort statLE (wordStats (allWords (cleanText text)))
  have hrank := sorted_wordStats_rank (allWords (cleanText text))
  have hr : fallbackKeywordExtraction text k =
      ((List.insertionSort statLE (wordStats (allWords (cleanText text)))).take
        k.toNat).map WordStat.word := by
    show ((List.insertionSort statLE (wordStats (allWords (cleanText text)))).map
      WordStat.word).take k.toNat = _
    rw [List.map_take]
  refine ⟨?_, ?_, ?_, ?_⟩
  · rw [hr]
    rw [List.length_map, List.length_take, hperm.length_eq]
    show min k.toNat (attachStats _ 0 (firstUniq _)).length = _
    rw [attachStats_length]
  · rw [hr]
    refine List.pairwise_map.mpr ?_
    exact hrank.sublist (List.take_sublist k.toNat _)
  · intro w hw
    rw [hr] at hw
    rcases List.mem_map.mp hw with ⟨it, hit, hitw⟩
    have hit2 := (List.take_sublist k.toNat _).subset hit
    have := (wordStats_fields _ it (hperm.mem_iff.mp hit2)).2.2
    rw [hitw] at this
    exact mem_firstUniq.mp this
  · intro w hw hnr v hv
    obtain ⟨itw, hitw_mem, hitw_word⟩ :=
      attachStats_surj (allWords (cleanText text)) (firstUniq (allWords (cleanText text))) 0 w hw
    have hitw_sorted : itw ∈
        List.insertionSort statLE (wordStats (allWords (cleanText text))) :=
      hperm.mem_iff.mpr hitw_mem
    rw [← List.take_append_drop k.toNat
      (List.insertionSort statLE (wordStats (allWords (cleanText text))))] at hitw_sorted
    rcases List.mem_append.mp hitw_sorted with hin | hin
    · exfalso
      apply hnr
      rw [hr]
      exact List.mem_map.mpr ⟨itw, hin, hitw_word⟩
    · rw [hr] at hv
      rcases List.mem_map.mp hv with ⟨itv, hitv, hitv_word⟩
      have hcross := (List.pairwise_append.mp
        ((List.take_append_drop k.toNat
          (List.insertionSort statLE (wordStats (allWords (cleanText text))))).symm ▸
            hrank)).2.2
      have := hcross itv hitv itw hin
      rw [hitv_word, hitw_word] at this
      exact this

/-- Witness for C6 on a concrete pool: with `k = 2` on
`"aaa bbb aaa ccc bbb aaa"`, the kept token `aaa` is pooled and outranks
the dropped token `ccc`. -/
theorem c6_witness :
    "aaa".toList ∈ allWords (cleanText "aaa bbb aaa ccc bbb aaa".toList) ∧
    wordRankLt (allWords (cleanText "aaa bbb aaa ccc bbb aaa".toList))
      "aaa".toList "ccc".toList :=
  ⟨(c6_fallback_top_frequencies "aaa bbb aaa ccc bbb aaa".toList 2).2.2.1
      "aaa".toList (by decide),
   (c6_fallback_top_frequencies "aaa bbb aaa ccc bbb aaa".toList 2).2.2.2
      "ccc".toList (by decide) (by decide) "aaa".toList (by decide)⟩
